import Mathlib

/-!
Verification of the compile-commands-merger tool (src/main.rs) against its
specification. The Rust program is shallowly embedded: the `HashMap` record
store becomes an insertion-ordered association list (`List (String ×
CompileCommand)`), file reading becomes an `Option (List CompileCommand)`
parse result (`serde_json::from_reader` either yields the whole record list
or fails), directory trees become an inductive `FSTree`, and the `notify`
event vocabulary becomes the inductive `EventKind`.
-/

set_option autoImplicit false

/-- The `CompileCommand` struct of `main.rs` (one record of a
`compile_commands.json` file): `directory`, `command`, `file` (the dedup key)
and the optional `output` field. -/
structure CompileCommand where
  directory : String
  command : String
  file : String
  output : Option String
deriving DecidableEq, Repr

/-- Insert-or-update on an association list, modelling
`HashMap::insert(key, value)`: if the key is present its value is replaced in
place, otherwise the pair is appended at the end. The list order stands for
the (deterministic for a fixed map) iteration order of the Rust `HashMap`. -/
def mapInsert (k : String) (v : CompileCommand) :
    List (String × CompileCommand) → List (String × CompileCommand)
  | [] => [(k, v)]
  | (k₂, v₂) :: rest =>
      if k₂ = k then (k, v) :: rest else (k₂, v₂) :: mapInsert k v rest

/-- Lookup on the association list, modelling `HashMap::get`. -/
def mapLookup (k : String) :
    List (String × CompileCommand) → Option CompileCommand
  | [] => none
  | (k₂, v) :: rest => if k₂ = k then some v else mapLookup k rest

/-- The `CombinedState` struct of `main.rs`: the record store, a map from
source-file path to `CompileCommand`. -/
structure CombinedState where
  data : List (String × CompileCommand)
deriving DecidableEq, Repr

/-- Insert every record of a parsed file into the store, keyed by its `file`
field — the loop `for command in commands { data.insert(command.file.clone(),
command) }` shared by `CombinedState::new` and `add_entries_from_file`. -/
def applyCommands (data : List (String × CompileCommand))
    (cmds : List CompileCommand) : List (String × CompileCommand) :=
  cmds.foldl (fun m c => mapInsert c.file c m) data

/-- Processing of one discovered file inside the loop of `CombinedState::new`:
`f` is the `read_compile_commands` result for the path (`some cmds` for `Ok`,
`none` for `Err`); a file that fails to read is skipped (`if let Ok`), the
records of a readable one are inserted keyed by their `file` field. -/
def loadFileStep (m : List (String × CompileCommand))
    (f : Option (List CompileCommand)) : List (String × CompileCommand) :=
  match f with
  | some cmds => applyCommands m cmds
  | none => m

/-- `CombinedState::new` (main.rs lines 44-62): starting from an empty map,
iterate over the discovered files in order, each element of `files` being the
`read_compile_commands` result for one discovered path. -/
def CombinedState.new (files : List (Option (List CompileCommand))) :
    CombinedState :=
  ⟨files.foldl loadFileStep []⟩

/-- `CombinedState::add_entries_from_file` (main.rs lines 65-76): `parsed` is
the `read_compile_commands` result for the path; on `Ok` every record is
inserted keyed by its `file` field, on `Err` (`if let Ok` fails) the state is
left untouched. -/
def CombinedState.add_entries_from_file (s : CombinedState)
    (parsed : Option (List CompileCommand)) : CombinedState :=
  match parsed with
  | some cmds => ⟨applyCommands s.data cmds⟩
  | none => s

/-- The values of the store in iteration order:
`self.data.values().cloned().collect()` of `write_to_file`. -/
def CombinedState.values (s : CombinedState) : List CompileCommand :=
  s.data.map Prod.snd

/-- JSON escaping of one character, as `serde_json` escapes string contents. -/
def escapeChar (c : Char) : String :=
  if c = '"' then "\\\""
  else if c = '\\' then "\\\\"
  else if c = '\n' then "\\n"
  else if c = '\t' then "\\t"
  else if c = '\r' then "\\r"
  else String.singleton c

/-- JSON escaping of a whole string. -/
def escapeJson (s : String) : String :=
  String.join (s.toList.map escapeChar)

/-- A JSON string literal. -/
def jsonStr (s : String) : String :=
  "\"" ++ escapeJson s ++ "\""

/-- Pretty-printed JSON object for one record, as `serde_json::to_string_pretty`
renders an element of the `Vec<CompileCommand>`; the `output` key is emitted
only when the field is present (`skip_serializing_if = "Option::is_none"`). -/
def serializeCommand (c : CompileCommand) : String :=
  "  \x7b\n    \"directory\": " ++ jsonStr c.directory
    ++ ",\n    \"command\": " ++ jsonStr c.command
    ++ ",\n    \"file\": " ++ jsonStr c.file
    ++ (match c.output with
        | none => ""
        | some o => ",\n    \"output\": " ++ jsonStr o)
    ++ "\n  \x7d"

/-- Pretty-printed JSON array for the record list, as
`serde_json::to_string_pretty` renders the `Vec<CompileCommand>`. -/
def serializeCommands (cs : List CompileCommand) : String :=
  match cs with
  | [] => "[]"
  | _ => "[\n" ++ String.intercalate ",\n" (cs.map serializeCommand) ++ "\n]"

/-- `CombinedState::write_to_file` (main.rs lines 79-88): serialize the values
of the store with `serde_json::to_string_pretty` and write that content to the
output path, borrowing the state immutably. The returned pair is (content
written, state after the call); the state component records that the call
does not mutate the store. -/
def CombinedState.write_to_file (s : CombinedState) :
    String × CombinedState :=
  (serializeCommands s.values, s)

/-- A directory tree: a node is a plain file or a directory with an ordered
list of entries; the order is the order in which `walkdir` yields them. -/
inductive FSTree where
  | file (name : String)
  | dir (name : String) (entries : List FSTree)
deriving Repr

/-- The `walkdir` loop body of `find_compile_commands` (main.rs lines
159-168) over the entries of one directory, `pre` being the path of that
directory: a file entry whose name is the literal `"compile_commands.json"`
is pushed and `walker.skip_current_dir()` drops the remaining not-yet-visited
entries of the containing directory; a directory entry is descended into
depth-first before its later siblings are visited. -/
def walkEntries (pre : List String) : List FSTree → List (List String)
  | [] => []
  | FSTree.file n :: rest =>
      if n = "compile_commands.json" then [pre ++ [n]]
      else walkEntries pre rest
  | FSTree.dir n es :: rest =>
      walkEntries (pre ++ [n]) es ++ walkEntries pre rest

/-- `find_compile_commands` (main.rs lines 153-171): if the root is not a
directory the result is empty, otherwise the tree is walked. Note the
function takes no input-filename argument: the matched name is the literal
`"compile_commands.json"`. -/
def find_compile_commands (root : FSTree) : List (List String) :=
  match root with
  | FSTree.file _ => []
  | FSTree.dir n es => walkEntries [n] es

/-- The subkinds of `notify::event::ModifyKind`: data (content) change,
metadata-only change, name change (rename), and the unclassified kinds. -/
inductive ModifyKind where
  | data
  | metadata
  | name
  | any
  | other
deriving DecidableEq, Repr

/-- The top-level `notify::EventKind` vocabulary: `Any`, `Access(_)`,
`Create(_)`, `Modify(_)` (with its subkind), `Remove(_)`, `Other`. -/
inductive EventKind where
  | any
  | access
  | create
  | modify (k : ModifyKind)
  | remove
  | other
deriving DecidableEq, Repr

/-- One filesystem notification: its kind and the paths it carries
(`event.paths`), each path a list of components. -/
structure WatchEvent where
  kind : EventKind
  paths : List (List String)

/-- The event filter of the watch loop (main.rs line 134):
`matches!(event.kind, EventKind::Modify(_) | EventKind::Create(_))`. -/
def eventRelevant (k : EventKind) : Bool :=
  match k with
  | EventKind.modify _ => true
  | EventKind.create => true
  | _ => false

/-- `path.ends_with(input_file)` of main.rs line 136 for a single-component
input filename: the final path component equals it. -/
def pathEndsWith (p : List String) (input : String) : Bool :=
  p.getLast? == some input

/-- The inner `for path in event.paths` loop of the watch loop (main.rs lines
135-143): for each path whose final component matches the input filename,
`add_entries_from_file` runs (with `readFile` giving that path's parse
result) and `write_to_file` runs; `writeOk = false` models an I/O failure of
the write, on which the code calls `.expect("Failed to update combined
file")` and the process aborts — modelled as `Except.error`. On success the
collected list holds each written content in order. -/
def processPaths (readFile : List String → Option (List CompileCommand))
    (writeOk : Bool) (input : String) :
    CombinedState → List (List String) →
      Except String (CombinedState × List String)
  | st, [] => Except.ok (st, [])
  | st, p :: rest =>
      if pathEndsWith p input then
        let st₂ := st.add_entries_from_file (readFile p)
        if writeOk then
          match processPaths readFile writeOk input st₂ rest with
          | Except.ok (stf, outs) =>
              Except.ok (stf, (st₂.write_to_file).1 :: outs)
          | Except.error e => Except.error e
        else Except.error "Failed to update combined file"
      else processPaths readFile writeOk input st rest

/-- One iteration of the watch loop for a received event (main.rs lines
133-144): when the kind matches `Modify(_) | Create(_)` the paths are
processed, otherwise nothing happens. -/
def handleEvent (readFile : List String → Option (List CompileCommand))
    (writeOk : Bool) (input : String) (st : CombinedState)
    (e : WatchEvent) : Except String (CombinedState × List String) :=
  if eventRelevant e.kind then processPaths readFile writeOk input st e.paths
  else Except.ok (st, [])

/-! ### Lemmas about the record-store operations -/

theorem mapLookup_mapInsert_self (k : String) (v : CompileCommand)
    (m : List (String × CompileCommand)) :
    mapLookup k (mapInsert k v m) = some v := by
  induction m with
  | nil => simp [mapInsert, mapLookup]
  | cons p rest ih =>
      obtain ⟨k₂, v₂⟩ := p
      by_cases h : k₂ = k
      · simp [mapInsert, mapLookup, h]
      · simp [mapInsert, mapLookup, h, ih]

theorem mapLookup_mapInsert_ne (k k₂ : String) (v : CompileCommand)
    (m : List (String × CompileCommand)) (h : k₂ ≠ k) :
    mapLookup k₂ (mapInsert k v m) = mapLookup k₂ m := by
  have h₁ : ¬k = k₂ := fun h₂ => h h₂.symm
  induction m with
  | nil => simp [mapInsert, mapLookup, h₁]
  | cons p rest ih =>
      obtain ⟨k₃, v₃⟩ := p
      by_cases h₃ : k₃ = k
      · subst h₃
        simp [mapInsert, mapLookup, h₁]
      · by_cases h₄ : k₃ = k₂ <;> simp [mapInsert, mapLookup, h₃, h₄, h, h₁, ih]

theorem mapInsert_of_not_mem (k : String) (v : CompileCommand)
    (m : List (String × CompileCommand)) (h : k ∉ m.map Prod.fst) :
    mapInsert k v m = m ++ [(k, v)] := by
  induction m with
  | nil => simp [mapInsert]
  | cons p rest ih =>
      obtain ⟨k₂, v₂⟩ := p
      simp only [List.map_cons, List.mem_cons] at h
      push_neg at h
      have h₁ : ¬k₂ = k := fun h₂ => h.1 h₂.symm
      simp [mapInsert, h₁, ih h.2]

theorem mem_keys_mapInsert (k x : String) (v : CompileCommand)
    (m : List (String × CompileCommand))
    (h : x ∈ (mapInsert k v m).map Prod.fst) :
    x = k ∨ x ∈ m.map Prod.fst := by
  induction m with
  | nil => simpa [mapInsert] using h
  | cons p rest ih =>
      obtain ⟨k₂, v₂⟩ := p
      by_cases h₂ : k₂ = k
      · subst h₂
        simpa [mapInsert] using h
      · simp only [mapInsert, if_neg h₂, List.map_cons, List.mem_cons] at h
        rcases h with h | h
        · exact Or.inr (by simp [h])
        · rcases ih h with h | h
          · exact Or.inl h
          · exact Or.inr (by simp [h])

theorem nodup_keys_mapInsert (k : String) (v : CompileCommand)
    (m : List (String × CompileCommand)) (h : (m.map Prod.fst).Nodup) :
    ((mapInsert k v m).map Prod.fst).Nodup := by
  induction m with
  | nil => simp [mapInsert]
  | cons p rest ih =>
      obtain ⟨k₂, v₂⟩ := p
      simp only [List.map_cons, List.nodup_cons] at h
      by_cases h₂ : k₂ = k
      · subst h₂
        simpa [mapInsert] using h
      · simp only [mapInsert, if_neg h₂, List.map_cons, List.nodup_cons]
        refine ⟨fun hmem => ?_, ih h.2⟩
        rcases mem_keys_mapInsert k k₂ v rest hmem with h₃ | h₃
        · exact h₂ h₃
        · exact h.1 h₃

theorem consistent_mapInsert (c : CompileCommand)
    (m : List (String × CompileCommand))
    (h : ∀ p ∈ m, Prod.fst p = (Prod.snd p).file) :
    ∀ p ∈ mapInsert c.file c m, Prod.fst p = (Prod.snd p).file := by
  induction m with
  | nil =>
      intro p hp
      simp only [mapInsert, List.mem_singleton] at hp
      simp [hp]
  | cons q rest ih =>
      obtain ⟨k₂, v₂⟩ := q
      intro p hp
      by_cases h₂ : k₂ = c.file
      · simp only [mapInsert, if_pos h₂, List.mem_cons] at hp
        rcases hp with hp | hp
        · simp [hp]
        · exact h p (List.mem_cons_of_mem _ hp)
      · simp only [mapInsert, if_neg h₂, List.mem_cons] at hp
        rcases hp with hp | hp
        · exact h p (by simp [hp])
        · exact ih (fun q hq => h q (List.mem_cons_of_mem _ hq)) p hp

theorem applyCommands_nil (m : List (String × CompileCommand)) :
    applyCommands m [] = m := rfl

theorem applyCommands_cons (m : List (String × CompileCommand))
    (c : CompileCommand) (cs : List CompileCommand) :
    applyCommands m (c :: cs) = applyCommands (mapInsert c.file c m) cs := rfl

theorem applyCommands_of_disjoint (cs : List CompileCommand) :
    ∀ m : List (String × CompileCommand),
      (m.map Prod.fst ++ cs.map CompileCommand.file).Nodup →
      applyCommands m cs = m ++ cs.map (fun c => (c.file, c)) := by
  induction cs with
  | nil => intro m _; simp [applyCommands]
  | cons c cs ih =>
      intro m h
      have h₂ := h
      rw [List.nodup_append] at h₂
      have hnotin : c.file ∉ m.map Prod.fst := fun hmem =>
        h₂.2.2 hmem (List.mem_cons_self _ _)
      have hih := ih (m ++ [(c.file, c)])
        (by simpa [List.append_assoc] using h)
      rw [applyCommands_cons, mapInsert_of_not_mem _ _ _ hnotin, hih]
      simp

theorem mapLookup_applyCommands_of_not_mem (k : String)
    (cs : List CompileCommand) :
    ∀ m : List (String × CompileCommand), k ∉ cs.map CompileCommand.file →
      mapLookup k (applyCommands m cs) = mapLookup k m := by
  induction cs with
  | nil => intro m _; rfl
  | cons c cs ih =>
      intro m h
      simp only [List.map_cons, List.mem_cons] at h
      push_neg at h
      rw [applyCommands_cons, ih _ h.2, mapLookup_mapInsert_ne _ _ _ _ h.1]

theorem mapLookup_mapInsert_isSome (k k₂ : String) (v : CompileCommand)
    (m : List (String × CompileCommand)) (h : (mapLookup k m).isSome) :
    (mapLookup k (mapInsert k₂ v m)).isSome := by
  by_cases hk : k₂ = k
  · subst hk
    simp [mapLookup_mapInsert_self]
  · rw [mapLookup_mapInsert_ne k₂ k v m (fun hh => hk hh.symm)]
    exact h

theorem mapLookup_applyCommands_isSome (k : String)
    (cs : List CompileCommand) :
    ∀ m : List (String × CompileCommand), (mapLookup k m).isSome →
      (mapLookup k (applyCommands m cs)).isSome := by
  induction cs with
  | nil => intro m h; exact h
  | cons c cs ih =>
      intro m h
      rw [applyCommands_cons]
      exact ih _ (mapLookup_mapInsert_isSome k c.file c m h)

theorem nodup_keys_applyCommands (cs : List CompileCommand) :
    ∀ m : List (String × CompileCommand), (m.map Prod.fst).Nodup →
      ((applyCommands m cs).map Prod.fst).Nodup := by
  induction cs with
  | nil => intro m h; exact h
  | cons c cs ih => intro m h; exact ih _ (nodup_keys_mapInsert _ _ _ h)

theorem consistent_applyCommands (cs : List CompileCommand) :
    ∀ m : List (String × CompileCommand),
      (∀ p ∈ m, Prod.fst p = (Prod.snd p).file) →
      ∀ p ∈ applyCommands m cs, Prod.fst p = (Prod.snd p).file := by
  induction cs with
  | nil => intro m h; exact h
  | cons c cs ih => intro m h; exact ih _ (consistent_mapInsert c m h)

theorem exists_mapLookup_applyCommands (k : String)
    (cs : List CompileCommand) :
    ∀ m : List (String × CompileCommand), (∃ c ∈ cs, c.file = k) →
      ∃ c₂, c₂ ∈ cs ∧ c₂.file = k ∧
        mapLookup k (applyCommands m cs) = some c₂ := by
  induction cs with
  | nil => intro m h; simp at h
  | cons c cs ih =>
      intro m h
      by_cases h₂ : ∃ c₂ ∈ cs, c₂.file = k
      · obtain ⟨c₂, hc₂, hfile, hlook⟩ := ih (mapInsert c.file c m) h₂
        exact ⟨c₂, List.mem_cons_of_mem _ hc₂, hfile,
          by rw [applyCommands_cons]; exact hlook⟩
      · obtain ⟨c₃, hc₃, hfile⟩ := h
        rcases List.mem_cons.mp hc₃ with h₃ | h₃
        · subst h₃
          have hnot : k ∉ cs.map CompileCommand.file := by
            intro hmem
            obtain ⟨c₄, hc₄, hf₄⟩ := List.mem_map.mp hmem
            exact h₂ ⟨c₄, hc₄, hf₄⟩
          refine ⟨c₃, List.mem_cons_self _ _, hfile, ?_⟩
          rw [applyCommands_cons,
            mapLookup_applyCommands_of_not_mem k cs _ hnot, ← hfile,
            mapLookup_mapInsert_self]
        · exact absurd ⟨c₃, h₃, hfile⟩ h₂

theorem values_filter_eq_nil (k : String)
    (m : List (String × CompileCommand)) (hnot : k ∉ m.map Prod.fst)
    (hcons : ∀ p ∈ m, Prod.fst p = (Prod.snd p).file) :
    (m.map Prod.snd).filter (fun c => c.file == k) = [] := by
  induction m with
  | nil => rfl
  | cons p rest ih =>
      obtain ⟨k₂, v₂⟩ := p
      simp only [List.map_cons, List.mem_cons] at hnot
      push_neg at hnot
      have hv : v₂.file = k₂ := (hcons (k₂, v₂) (List.mem_cons_self _ _)).symm
      have hne : (v₂.file == k) = false := by
        rw [hv]
        exact beq_eq_false_iff_ne.mpr (fun hh => hnot.1 hh.symm)
      simp only [List.map_cons, List.filter_cons, hne]
      simpa using ih hnot.2 (fun q hq => hcons q (List.mem_cons_of_mem _ hq))

theorem values_filter_mapInsert (k : String) (v : CompileCommand)
    (m : List (String × CompileCommand)) (hkeys : (m.map Prod.fst).Nodup)
    (hcons : ∀ p ∈ m, Prod.fst p = (Prod.snd p).file) (hv : v.file = k) :
    ((mapInsert k v m).map Prod.snd).filter (fun c => c.file == k) = [v] := by
  induction m with
  | nil => simp [mapInsert, hv]
  | cons p rest ih =>
      obtain ⟨k₂, v₂⟩ := p
      simp only [List.map_cons, List.nodup_cons] at hkeys
      have hv₂ : v₂.file = k₂ := (hcons (k₂, v₂) (List.mem_cons_self _ _)).symm
      by_cases h₂ : k₂ = k
      · subst h₂
        have hrest := values_filter_eq_nil _ rest hkeys.1
          (fun q hq => hcons q (List.mem_cons_of_mem _ hq))
        simp [mapInsert, List.filter_cons, hv, hrest]
      · have hne : (v₂.file == k) = false := by
          rw [hv₂]
          exact beq_eq_false_iff_ne.mpr h₂
        simp only [mapInsert, if_neg h₂, List.map_cons, List.filter_cons, hne]
        simpa using ih hkeys.2 (fun q hq => hcons q (List.mem_cons_of_mem _ hq))

theorem foldl_applyCommands_eq (fs : List (List CompileCommand)) :
    ∀ m : List (String × CompileCommand),
      (m.map Prod.fst ++ fs.flatten.map CompileCommand.file).Nodup →
      fs.foldl applyCommands m = m ++ fs.flatten.map (fun c => (c.file, c)) := by
  induction fs with
  | nil => intro m _; simp
  | cons cs fs ih =>
      intro m h
      have h₂ : ((m.map Prod.fst ++ cs.map CompileCommand.file)
          ++ fs.flatten.map CompileCommand.file).Nodup := by
        simpa [List.append_assoc] using h
      have hcs := List.Nodup.sublist (List.sublist_append_left _ _) h₂
      have hih := ih (m ++ cs.map fun c => (c.file, c))
        (by simpa [List.map_map, Function.comp, List.append_assoc] using h)
      rw [List.foldl_cons, applyCommands_of_disjoint cs m hcs, hih]
      simp

theorem new_map_some (fl : List (List CompileCommand)) :
    CombinedState.new (fl.map some) = ⟨fl.foldl applyCommands []⟩ := by
  unfold CombinedState.new
  rw [List.foldl_map]
  exact rfl

theorem inv_foldl_loadFileStep (files : List (Option (List CompileCommand))) :
    ∀ m : List (String × CompileCommand), (m.map Prod.fst).Nodup →
      (∀ p ∈ m, Prod.fst p = (Prod.snd p).file) →
      ((files.foldl loadFileStep m).map Prod.fst).Nodup ∧
      ∀ p ∈ files.foldl loadFileStep m, Prod.fst p = (Prod.snd p).file := by
  induction files with
  | nil => intro m h₁ h₂; exact ⟨h₁, h₂⟩
  | cons f fs ih =>
      intro m h₁ h₂
      cases f with
      | none => exact ih m h₁ h₂
      | some cmds =>
          exact ih _ (nodup_keys_applyCommands cmds m h₁)
            (consistent_applyCommands cmds m h₂)

/-! ### Sample records for concrete instances -/

/-- Sample record for the source file `foo.c`. -/
def recFoo : CompileCommand :=
  ⟨"/proj/build1", "cc -c foo.c", "foo.c", none⟩

/-- Sample record for the source file `bar.c`, with an `output` field. -/
def recBar : CompileCommand :=
  ⟨"/proj/build2", "cc -c bar.c", "bar.c", some "bar.o"⟩

/-- A second record for `foo.c` with a different command line. -/
def recFoo2 : CompileCommand :=
  ⟨"/proj/build1", "cc -O2 -c foo.c", "foo.c", none⟩

/-! ### The claims -/

/-- C1: for every set of input files whose records all have distinct
source-file paths, building the record store with `CombinedState::new` and
serializing it with `write_to_file` produces an output containing exactly the
union of all those records, one record per distinct source-file path. -/
theorem C1_new_union_of_distinct (files : List (List CompileCommand))
    (h : (files.flatten.map CompileCommand.file).Nodup) :
    (CombinedState.new (files.map some)).values = files.flatten ∧
    ((CombinedState.new (files.map some)).write_to_file).1
      = serializeCommands files.flatten := by
  have hval : (CombinedState.new (files.map some)).values = files.flatten := by
    rw [new_map_some]
    show (files.foldl applyCommands []).map Prod.snd = files.flatten
    rw [foldl_applyCommands_eq files [] (by simpa using h)]
    simp only [List.nil_append, List.map_map]
    have hsnd : (Prod.snd ∘ fun c : CompileCommand => (c.file, c)) = id := rfl
    rw [hsnd, List.map_id]
  exact ⟨hval, by simp [CombinedState.write_to_file, hval]⟩

/-- Witness for C1 at two one-record files with distinct keys. -/
theorem C1_new_union_of_distinct_witness :
    (CombinedState.new ([[recFoo], [recBar]].map some)).values
      = ([[recFoo], [recBar]] : List (List CompileCommand)).flatten ∧
    ((CombinedState.new ([[recFoo], [recBar]].map some)).write_to_file).1
      = serializeCommands ([[recFoo], [recBar]] : List (List CompileCommand)).flatten :=
  C1_new_union_of_distinct [[recFoo], [recBar]] (by decide)

/-- C2: when two records with the same source-file path are loaded in
sequence, the store keeps only the most recently loaded record — looking up
the shared key yields the second record whole, and the serialized values
contain exactly that one record for the key (no merging of fields). -/
theorem C2_last_write_wins (st : CombinedState) (a b : CompileCommand)
    (hkeys : (st.data.map Prod.fst).Nodup)
    (hcons : ∀ p ∈ st.data, Prod.fst p = (Prod.snd p).file)
    (hfile : a.file = b.file) :
    mapLookup a.file
      (((st.add_entries_from_file (some [a])).add_entries_from_file
        (some [b])).data) = some b ∧
    (((st.add_entries_from_file (some [a])).add_entries_from_file
        (some [b])).values).filter (fun c => c.file == b.file) = [b] := by
  have hdata : ((st.add_entries_from_file (some [a])).add_entries_from_file
      (some [b])).data = mapInsert b.file b (mapInsert a.file a st.data) := rfl
  constructor
  · rw [hdata, hfile, mapLookup_mapInsert_self]
  · show ((mapInsert b.file b (mapInsert a.file a st.data)).map
      Prod.snd).filter (fun c => c.file == b.file) = [b]
    exact values_filter_mapInsert b.file b _
      (nodup_keys_mapInsert _ _ _ hkeys)
      (consistent_mapInsert a st.data hcons) rfl

/-- Witness for C2: two records for `foo.c` loaded into the empty store. -/
theorem C2_last_write_wins_witness :
    mapLookup recFoo.file
      ((((⟨[]⟩ : CombinedState).add_entries_from_file
        (some [recFoo])).add_entries_from_file (some [recFoo2])).data)
      = some recFoo2 ∧
    ((((⟨[]⟩ : CombinedState).add_entries_from_file
        (some [recFoo])).add_entries_from_file (some [recFoo2])).values).filter
      (fun c => c.file == recFoo2.file) = [recFoo2] :=
  C2_last_write_wins ⟨[]⟩ recFoo recFoo2 (by simp) (by simp) (by decide)

/-- C3: the claim says the filename matched during Discovery is driven by the
configured input filename; in the code `find_compile_commands` hardcodes the
literal `"compile_commands.json"` (main.rs line 161) and never receives
`Args::input`, so with the input filename configured to `"my_commands.json"`
a directory containing `r/my_commands.json` yields nothing — even though the
path does end with the configured name, as the watch loop's own filter
confirms — while a `compile_commands.json` file is still matched. -/
theorem C3_discovery_ignores_configured_input :
    find_compile_commands (FSTree.dir "r" [FSTree.file "my_commands.json"]) = []
      ∧ pathEndsWith ["r", "my_commands.json"] "my_commands.json" = true
      ∧ find_compile_commands
          (FSTree.dir "r" [FSTree.file "compile_commands.json"])
        = [["r", "compile_commands.json"]] := by
  refine ⟨?_, by decide, ?_⟩ <;> simp [find_compile_commands, walkEntries]

/-- Counterexample to C4: with nested files `a/compile_commands.json` and
`a/b/compile_commands.json`, when the subdirectory `b` is visited before the
matching file in `a`, Discovery has already recursed into `b` by the time the
match in `a` is found, so it returns both files — not only
`a/compile_commands.json` as the claim states for every visiting order. -/
theorem C4_counterexample :
    find_compile_commands (FSTree.dir "a"
      [FSTree.dir "b" [FSTree.file "compile_commands.json"],
       FSTree.file "compile_commands.json"])
      = [["a", "b", "compile_commands.json"], ["a", "compile_commands.json"]] ∧
    find_compile_commands (FSTree.dir "a"
      [FSTree.dir "b" [FSTree.file "compile_commands.json"],
       FSTree.file "compile_commands.json"])
      ≠ [["a", "compile_commands.json"]] := by
  constructor <;> simp [find_compile_commands, walkEntries]

/-- C4 as amended: once Discovery yields a matching file directly inside a
directory, the remaining not-yet-visited entries of that directory are
skipped (`skip_current_dir`), whatever they are — in particular sibling
directories listed after the match are never recursed into; consequently,
with nested files `a/compile_commands.json` and `a/b/compile_commands.json`,
only `a/compile_commands.json` is returned when the file is visited before
the subdirectory `b`. -/
theorem C4_pruning_after_match (pre : List String) (rest : List FSTree) :
    walkEntries pre (FSTree.file "compile_commands.json" :: rest)
      = [pre ++ ["compile_commands.json"]] ∧
    find_compile_commands (FSTree.dir "a"
      [FSTree.file "compile_commands.json",
       FSTree.dir "b" [FSTree.file "compile_commands.json"]])
      = [["a", "compile_commands.json"]] := by
  constructor <;> simp [find_compile_commands, walkEntries]

/-- Counterexample to C5: a metadata-only event (`Modify(Metadata)`) whose
path matches the configured input filename does trigger processing — the
watch loop matches any `Modify(_)` — so Loader and Writer run and the output
file is rewritten (here with the empty array), contradicting the claim that
metadata-only events trigger no processing. -/
theorem C5_counterexample :
    handleEvent (fun _ => none) true "compile_commands.json" ⟨[]⟩
      ⟨EventKind.modify ModifyKind.metadata, [["d", "compile_commands.json"]]⟩
      = Except.ok (⟨[]⟩, ["[]"]) ∧
    handleEvent (fun _ => none) true "compile_commands.json" ⟨[]⟩
      ⟨EventKind.modify ModifyKind.metadata, [["d", "compile_commands.json"]]⟩
      ≠ Except.ok (⟨[]⟩, []) := by
  have heval : handleEvent (fun _ => none) true "compile_commands.json" ⟨[]⟩
      ⟨EventKind.modify ModifyKind.metadata, [["d", "compile_commands.json"]]⟩
      = Except.ok (⟨[]⟩, ["[]"]) := rfl
  refine ⟨heval, ?_⟩
  rw [heval]
  intro hcontra
  simp at hcontra

/-- C5 as amended: Loader and Writer are invoked only when the event kind is
`Modify` of any subtype — including metadata-only and rename modifications —
or `Create`; events of kind `Remove` (deleted), `Access`, `Any` and `Other`
trigger no processing even when their paths match the configured input
filename, while a `Modify` event of every subtype enters path processing. -/
theorem C5_event_kind_filter
    (rf : List String → Option (List CompileCommand)) (wOk : Bool)
    (input : String) (st : CombinedState) (e : WatchEvent)
    (h : e.kind = EventKind.access ∨ e.kind = EventKind.remove ∨
      e.kind = EventKind.any ∨ e.kind = EventKind.other) :
    handleEvent rf wOk input st e = Except.ok (st, []) ∧
    ∀ (mk : ModifyKind) (ps : List (List String)),
      handleEvent rf wOk input st ⟨EventKind.modify mk, ps⟩
        = processPaths rf wOk input st ps := by
  constructor
  · rcases h with h | h | h | h <;> simp [handleEvent, eventRelevant, h]
  · intro mk ps
    rfl

/-- Witness for C5 (amended) at a `Remove` event with a matching path,
together with the `Modify(Metadata)` instantiation of the second conjunct. -/
theorem C5_event_kind_filter_witness :
    handleEvent (fun _ => none) true "compile_commands.json" ⟨[]⟩
      ⟨EventKind.remove, [["d", "compile_commands.json"]]⟩
      = Except.ok (⟨[]⟩, []) ∧
    handleEvent (fun _ => none) true "compile_commands.json" ⟨[]⟩
      ⟨EventKind.modify ModifyKind.metadata, [["d", "compile_commands.json"]]⟩
      = processPaths (fun _ => none) true "compile_commands.json" ⟨[]⟩
        [["d", "compile_commands.json"]] := by
  have h := C5_event_kind_filter (fun _ => none) true "compile_commands.json"
    ⟨[]⟩ ⟨EventKind.remove, [["d", "compile_commands.json"]]⟩
    (Or.inr (Or.inl rfl))
  exact ⟨h.1, h.2 ModifyKind.metadata [["d", "compile_commands.json"]]⟩

/-- C6: the spec requires an I/O failure of a watch-triggered write not to
crash the process (log and continue); the code instead calls
`.expect("Failed to update combined file")` on every watch-triggered write
(main.rs line 141), so a failing write while handling a relevant event aborts
the process — the event-loop step ends in the fatal error rather than an `ok`
continuation. -/
theorem C6_watch_write_failure_aborts :
    handleEvent (fun _ => some [recFoo]) false "compile_commands.json" ⟨[]⟩
      ⟨EventKind.modify ModifyKind.data, [["d", "compile_commands.json"]]⟩
      = Except.error "Failed to update combined file" := rfl

/-- C7: an unreadable or malformed input file leaves the record store exactly
unchanged, and for a file that parses, all of its records are applied: every
record's key is afterwards bound to a record of that same file with that
key (parsing completes atomically before any insertion). -/
theorem C7_loader_atomic (st : CombinedState) (cmds : List CompileCommand) :
    st.add_entries_from_file none = st ∧
    ∀ c ∈ cmds, ∃ c₂, c₂ ∈ cmds ∧ c₂.file = c.file ∧
      mapLookup c.file ((st.add_entries_from_file (some cmds)).data)
        = some c₂ := by
  refine ⟨rfl, ?_⟩
  intro c hc
  obtain ⟨c₂, h₁, h₂, h₃⟩ :=
    exists_mapLookup_applyCommands c.file cmds st.data ⟨c, hc, rfl⟩
  exact ⟨c₂, h₁, h₂, h₃⟩

/-- Witness for C7: the single-record file `[recFoo]` applied to the empty
store binds the key of `recFoo`. -/
theorem C7_loader_atomic_witness :
    ∃ c₂, c₂ ∈ [recFoo] ∧ c₂.file = recFoo.file ∧
      mapLookup recFoo.file
        (((⟨[]⟩ : CombinedState).add_entries_from_file (some [recFoo])).data)
        = some c₂ :=
  (C7_loader_atomic ⟨[]⟩ [recFoo]).2 recFoo (List.mem_singleton.mpr rfl)

/-- C8: calling the writer twice in a row with no mutation of the store in
between produces equal output content — `write_to_file` borrows the state
immutably, so the second call serializes the same store and yields the very
same bytes. -/
theorem C8_write_idempotent (st : CombinedState) :
    (((st.write_to_file).2).write_to_file).1 = (st.write_to_file).1 ∧
    (st.write_to_file).2 = st :=
  ⟨rfl, rfl⟩

/-- C9: the record store holds at most one record per source-file path after
`CombinedState::new` and after each `add_entries_from_file`: the keys are
pairwise distinct and each entry is keyed by its record's `file` field, and
both operations preserve this invariant. -/
theorem C9_at_most_one_record_per_key
    (files : List (Option (List CompileCommand))) (st : CombinedState)
    (parsed : Option (List CompileCommand))
    (hkeys : (st.data.map Prod.fst).Nodup)
    (hcons : ∀ p ∈ st.data, Prod.fst p = (Prod.snd p).file) :
    ((CombinedState.new files).data.map Prod.fst).Nodup ∧
    (∀ p ∈ (CombinedState.new files).data,
      Prod.fst p = (Prod.snd p).file) ∧
    ((st.add_entries_from_file parsed).data.map Prod.fst).Nodup ∧
    ∀ p ∈ (st.add_entries_from_file parsed).data,
      Prod.fst p = (Prod.snd p).file := by
  have hnew := inv_foldl_loadFileStep files [] (by simp) (by simp)
  refine ⟨hnew.1, hnew.2, ?_⟩
  cases parsed with
  | none => exact ⟨hkeys, hcons⟩
  | some cmds =>
      exact ⟨nodup_keys_applyCommands cmds st.data hkeys,
        consistent_applyCommands cmds st.data hcons⟩

/-- Witness for C9 at a two-file initial load (one of them unreadable) and an
update of the empty store. -/
theorem C9_at_most_one_record_per_key_witness :
    ((CombinedState.new [some [recFoo], none]).data.map Prod.fst).Nodup ∧
    (∀ p ∈ (CombinedState.new [some [recFoo], none]).data,
      Prod.fst p = (Prod.snd p).file) ∧
    (((⟨[]⟩ : CombinedState).add_entries_from_file
      (some [recBar])).data.map Prod.fst).Nodup ∧
    ∀ p ∈ ((⟨[]⟩ : CombinedState).add_entries_from_file
      (some [recBar])).data, Prod.fst p = (Prod.snd p).file :=
  C9_at_most_one_record_per_key [some [recFoo], none] ⟨[]⟩ (some [recBar])
    (by simp) (by simp)

/-- C10: the key set of the record store is monotone: a key present before an
`add_entries_from_file` is still present after it, `write_to_file` leaves the
store unchanged, and a `Remove` (file-deletion) event leaves the store and
the output untouched — so a record once merged stays in every subsequent
output. -/
theorem C10_keys_monotone (st : CombinedState)
    (parsed : Option (List CompileCommand)) (k : String)
    (h : (mapLookup k st.data).isSome) :
    (mapLookup k ((st.add_entries_from_file parsed).data)).isSome ∧
    (st.write_to_file).2 = st ∧
    ∀ (rf : List String → Option (List CompileCommand)) (wOk : Bool)
      (input : String) (ps : List (List String)),
      handleEvent rf wOk input st ⟨EventKind.remove, ps⟩
        = Except.ok (st, []) := by
  refine ⟨?_, rfl, fun rf wOk input ps => rfl⟩
  cases parsed with
  | none => exact h
  | some cmds => exact mapLookup_applyCommands_isSome k cmds st.data h

/-- Witness for C10: the key `foo.c`, present in the store, survives loading
a file with a record for `bar.c`, and a `Remove` event changes nothing. -/
theorem C10_keys_monotone_witness :
    (mapLookup "foo.c" (((⟨[("foo.c", recFoo)]⟩ : CombinedState
      ).add_entries_from_file (some [recBar])).data)).isSome ∧
    ((⟨[("foo.c", recFoo)]⟩ : CombinedState).write_to_file).2
      = (⟨[("foo.c", recFoo)]⟩ : CombinedState) ∧
    handleEvent (fun _ => none) true "compile_commands.json"
      ⟨[("foo.c", recFoo)]⟩
      ⟨EventKind.remove, [["d", "compile_commands.json"]]⟩
      = Except.ok (⟨[("foo.c", recFoo)]⟩, []) := by
  have h := C10_keys_monotone ⟨[("foo.c", recFoo)]⟩ (some [recBar]) "foo.c"
    (by decide)
  exact ⟨h.1, h.2.1, h.2.2 (fun _ => none) true "compile_commands.json"
    [["d", "compile_commands.json"]]⟩
